import Mathlib

/-!
# Verification of the tabular RL engine (decay schedules + Q-table agent)

Shallow embedding of the repository's core:

* `src/decay.rs` — the `validate` sign check and the five decay schedules
  (`Constant`, `Exponential`, `InverseTime`, `Linear`, `Step`).
* `src/algo/q_table.rs` — the `QTableAgent`: construction, action
  selection (`act`) and the Q-learning update (`learn`).

`f32` scalars are embedded as `ℚ` wherever the code only uses field
operations and comparisons (so that every definition is executable), and
as `ℝ` where the code calls transcendental functions (`exp`) or where a
limit statement is involved.  The `HashMap` Q-table is embedded as an
association list with first-match lookup and prepend-insert, which is
observably equivalent to `HashMap::get`/`HashMap::insert`.

The agent's two sources of nondeterminism — the epsilon-greedy random
draw (`exploration.choose`) and the environment's `random_action` — are
made explicit parameters of `act`.
-/

namespace RL

/-- Embeds `validate` from `src/decay.rs` (lines 8–12):
`((rate >= 0.0 && vi > vf) || (rate < 0.0 && vi < vf)).then_some(()).ok_or_else(...)`. -/
def validate (rate vi vf : ℚ) : Except String Unit :=
  if (0 ≤ rate ∧ vf < vi) ∨ (rate < 0 ∧ vi < vf) then Except.ok ()
  else Except.error "`vi - vf` must have same sign as `rate`"

/-- Embeds `Constant` from `src/decay.rs`. -/
structure Constant where
  value : ℚ
deriving DecidableEq

/-- `Constant::new` — unvalidated. -/
def Constant.new (value : ℚ) : Constant := ⟨value⟩

/-- `impl Decay for Constant`: `evaluate(_t) = value`. -/
def Constant.evaluate (c : Constant) (_t : ℚ) : ℚ := c.value

/-- Embeds `Exponential` from `src/decay.rs`. -/
structure Exponential where
  rate : ℚ
  vi : ℚ
  vf : ℚ
deriving DecidableEq

/-- `Exponential::new`: `validate(rate, vi, vf)?; Ok(Self { rate, vi, vf })`. -/
def Exponential.new (rate vi vf : ℚ) : Except String Exponential :=
  (validate rate vi vf).map fun _ => ⟨rate, vi, vf⟩

/-- `impl Decay for Exponential`: `vf + (vi - vf) * (-rate * t).exp()`. -/
noncomputable def Exponential.evaluate (d : Exponential) (t : ℝ) : ℝ :=
  (d.vf : ℝ) + ((d.vi : ℝ) - (d.vf : ℝ)) * Real.exp (-(d.rate : ℝ) * t)

/-- Embeds `InverseTime` from `src/decay.rs`. -/
structure InverseTime where
  rate : ℚ
  vi : ℚ
  vf : ℚ
deriving DecidableEq

/-- `InverseTime::new`: `validate(rate, vi, vf)?; Ok(Self { rate, vi, vf })`. -/
def InverseTime.new (rate vi vf : ℚ) : Except String InverseTime :=
  (validate rate vi vf).map fun _ => ⟨rate, vi, vf⟩

/-- `impl Decay for InverseTime`: `vf + (vi - vf) / (1.0 + rate * t)`. -/
noncomputable def InverseTime.evaluate (d : InverseTime) (t : ℝ) : ℝ :=
  (d.vf : ℝ) + ((d.vi : ℝ) - (d.vf : ℝ)) / (1 + (d.rate : ℝ) * t)

/-- Embeds `Linear` from `src/decay.rs`. -/
structure Linear where
  rate : ℚ
  vi : ℚ
  vf : ℚ
deriving DecidableEq

/-- `Linear::new`: `validate(rate, vi, vf)?; Ok(Self { rate, vi, vf })`. -/
def Linear.new (rate vi vf : ℚ) : Except String Linear :=
  (validate rate vi vf).map fun _ => ⟨rate, vi, vf⟩

/-- `impl Decay for Linear`: `(vi - rate * t).max(vf)`. -/
def Linear.evaluate (d : Linear) (t : ℚ) : ℚ :=
  max (d.vi - d.rate * t) d.vf

/-- Embeds `Step` from `src/decay.rs`. -/
structure Step where
  rate : ℚ
  vi : ℚ
  vf : ℚ
  step : ℚ
deriving DecidableEq

/-- `Step::new`: `validate(rate, vi, vf)?; Ok(Self { rate, vi, vf, step })`. -/
def Step.new (rate vi vf step : ℚ) : Except String Step :=
  (validate rate vi vf).map fun _ => ⟨rate, vi, vf, step⟩

/-- `impl Decay for Step`: `(vi * rate.powf((t / step).floor())).max(vf)`;
`powf` at the integral exponent `⌊t / step⌋` is the signed integer power. -/
def Step.evaluate (d : Step) (t : ℚ) : ℚ :=
  max (d.vi * d.rate ^ (Int.floor (t / d.step))) d.vf

/-- The Q-table of `src/algo/q_table.rs`: `HashMap<(State, Action), f32>`,
embedded as an association list (first-match lookup, prepend insert). -/
def QTable (σ α : Type) : Type := List ((σ × α) × ℚ)

/-- `q_table.get(&k).unwrap_or(&0.0)`: lookup with default `0.0` for
absent keys. -/
def qget [DecidableEq σ] [DecidableEq α] : QTable σ α → σ × α → ℚ
  | [], _ => 0
  | (k, v) :: rest, k' => if k' = k then v else qget rest k'

/-- `q_table.insert(k, v)`: under `qget` a prepend is observably the
same as `HashMap::insert`'s overwrite. -/
def qinsert (table : QTable σ α) (k : σ × α) (v : ℚ) : QTable σ α :=
  (k, v) :: table

/-- The experience tuple `Exp` from `src/memory.rs` as used by `learn`
(fields taken from the destructuring in `src/algo/q_table.rs`). -/
structure Exp (σ α : Type) where
  state : σ
  action : α
  next_state : Option σ
  reward : ℚ

/-- Modelled from the spec: `Choice` from the missing `src/exploration.rs` —
the binary explore/exploit decision returned by `EpsilonGreedy::choose`. -/
inductive Choice where
  | explore : Choice
  | exploit : Choice

/-- Modelled from the spec: `EpsilonGreedy<decay::Exponential>` from the
missing `src/exploration.rs` — a policy wrapping a decay schedule; its
random draw is made an explicit `Choice` argument of `act` below. -/
structure EpsilonGreedy where
  decay : Exponential

/-- Modelled from the spec: the `assert_interval!` macro (not under
`src/`), per `QTableAgent::new`'s doc — "**Panics** if `alpha` or `gamma`
is not in the interval `[0,1]`".  `none` models the panic. -/
def assert_interval (v lo hi : ℚ) : Option Unit :=
  if lo ≤ v ∧ v ≤ hi then some () else none

/-- Embeds `QTableAgent` from `src/algo/q_table.rs`. -/
structure QTableAgent (σ α : Type) where
  q_table : QTable σ α
  alpha : ℚ
  gamma : ℚ
  exploration : EpsilonGreedy
  episode : ℕ

/-- `QTableAgent::new` (lines 38–48): asserts `alpha` and `gamma` lie in
`[0,1]`, then builds the agent with an empty table and episode 0.
`none` models the panic of a failed assertion. -/
def QTableAgent.new (σ α : Type) (alpha gamma : ℚ) (exploration : EpsilonGreedy) :
    Option (QTableAgent σ α) := do
  let _ ← assert_interval alpha 0 1
  let _ ← assert_interval gamma 0 1
  some { q_table := [], alpha := alpha, gamma := gamma,
         exploration := exploration, episode := 0 }

/-- Rust's `Iterator::max_by` keyed by `f`: fold keeping the later
element on ties (`core::cmp::max_by` returns its second argument when
the comparison is `Less` or `Equal`); `none` on an empty list models
the `.expect(...)` panic site. -/
def maxByVal (f : α → ℚ) : List α → Option α
  | [] => none
  | a :: as => some (as.foldl (fun acc x => if f acc ≤ f x then x else acc) a)

/-- `QTableAgent::act` (lines 61–73).  The epsilon-greedy draw
`self.exploration.choose(self.episode)` and the environment's
`random_action()` are passed in explicitly (`choice`, `randomAction`);
`none` models the `.expect` panic on an empty action list. -/
def QTableAgent.act [DecidableEq σ] [DecidableEq α] (ag : QTableAgent σ α)
    (choice : Choice) (randomAction : α) (state : σ) (actions : List α) : Option α :=
  match choice with
  | Choice.explore => some randomAction
  | Choice.exploit => maxByVal (fun a => qget ag.q_table (state, a)) actions

/-- Maximum of the mapped value list in `learn`:
`.max_by(...).unwrap_or(0.0)` — the maximum of a non-empty list of
values, `0.0` for an empty one. -/
def listMax : List ℚ → ℚ
  | [] => 0
  | x :: xs => xs.foldl max x

/-- The bootstrap term of `learn`:
`next_actions.iter().map(|&a| *next_state.and_then(|s| q_table.get(&(s, a))).unwrap_or(&0.0)).max_by(..).unwrap_or(0.0)`. -/
def maxNextQ [DecidableEq σ] [DecidableEq α] (table : QTable σ α)
    (next_state : Option σ) (next_actions : List α) : ℚ :=
  listMax (next_actions.map fun a =>
    match next_state with
    | some s => qget table (s, a)
    | none => 0)

/-- `QTableAgent::learn` (lines 75–97): the one-step Q-learning update
`Q(s,a) ← (1 − α)·Q(s,a) + α·(r + γ·max_next_q)` inserted into the table. -/
def QTableAgent.learn [DecidableEq σ] [DecidableEq α] (ag : QTableAgent σ α)
    (experience : Exp σ α) (next_actions : List α) : QTableAgent σ α :=
  let q_value := qget ag.q_table (experience.state, experience.action)
  let max_next_q := maxNextQ ag.q_table experience.next_state next_actions
  let new_q_value := experience.reward + ag.gamma * max_next_q
  let weighted_q_value := (1 - ag.alpha) * q_value + ag.alpha * new_q_value
  { ag with q_table := qinsert ag.q_table (experience.state, experience.action) weighted_q_value }

/-- `n` repeated calls of `learn` with the identical experience and
next-action list. -/
def learnIter [DecidableEq σ] [DecidableEq α] (ag : QTableAgent σ α)
    (e : Exp σ α) (next_actions : List α) : ℕ → QTableAgent σ α
  | 0 => ag
  | n + 1 => (learnIter ag e next_actions n).learn e next_actions

/-- The tie-break described by the specification for `act`/`Exploit`:
the FIRST maximal element of the list (an element of the tail replaces
the head only when strictly greater). -/
def firstArgmax (f : α → ℚ) : List α → Option α
  | [] => none
  | a :: as =>
    match firstArgmax f as with
    | none => some a
    | some b => if f a < f b then some b else some a

/-- The tie-break the code actually implements: the LAST maximal element
of the list (the head wins only when strictly greater than the best of
the tail). -/
def lastArgmax (f : α → ℚ) : List α → Option α
  | [] => none
  | a :: as =>
    match lastArgmax f as with
    | none => some a
    | some b => if f b < f a then some a else some b

/-- The fixed point of repeated `learn` calls: `new_q_value = reward +
gamma * max_next_q` computed from the agent's current table. -/
def tdTarget [DecidableEq σ] [DecidableEq α] (ag : QTableAgent σ α)
    (e : Exp σ α) (next_actions : List α) : ℚ :=
  e.reward + ag.gamma * maxNextQ ag.q_table e.next_state next_actions

/-- A concrete exploration policy for instantiating the generic theorems. -/
def sampleExploration : EpsilonGreedy := ⟨⟨1, 1, 0⟩⟩

/-- A concrete fresh agent (`alpha = 1/2`, `gamma = 9/10`) for
instantiating the generic theorems. -/
def sampleAgent : QTableAgent ℕ ℕ :=
  { q_table := [], alpha := mkRat 1 2, gamma := mkRat 9 10,
    exploration := sampleExploration, episode := 0 }

/-- A concrete terminal experience tuple for instantiating the generic
theorems. -/
def sampleExp : Exp ℕ ℕ := { state := 0, action := 0, next_state := none, reward := 1 }

/-! ## Helper lemmas -/

/-- `validate` succeeds exactly on the code's disjunction. -/
theorem validate_isOk_iff (rate vi vf : ℚ) :
    (validate rate vi vf).isOk = true ↔ ((0 ≤ rate ∧ vf < vi) ∨ (rate < 0 ∧ vi < vf)) := by
  unfold validate
  split <;> simp_all [Except.isOk, Except.toBool]

/-- `validate` fails exactly off the code's disjunction, carrying the
human-readable message. -/
theorem validate_error_iff (rate vi vf : ℚ) :
    validate rate vi vf = Except.error "`vi - vf` must have same sign as `rate`" ↔
      ¬((0 ≤ rate ∧ vf < vi) ∨ (rate < 0 ∧ vi < vf)) := by
  unfold validate
  split <;> simp_all

/-- `Except.map` preserves `isOk`. -/
theorem except_map_isOk (f : β → γ) (x : Except String β) :
    ((x.map f).isOk) = x.isOk := by
  cases x <;> rfl

/-- Lookup after insert at the inserted key. -/
theorem qget_qinsert_self [DecidableEq σ] [DecidableEq α] (table : QTable σ α)
    (k : σ × α) (v : ℚ) : qget (qinsert table k v) k = v := by
  simp [qinsert, qget]

/-- Lookup after insert at a different key. -/
theorem qget_qinsert_ne [DecidableEq σ] [DecidableEq α] (table : QTable σ α)
    (k k' : σ × α) (v : ℚ) (h : k' ≠ k) : qget (qinsert table k v) k' = qget table k' := by
  simp [qinsert, qget, h]

/-- The table produced by `learn` is the insertion of the weighted value. -/
theorem learn_q_table [DecidableEq σ] [DecidableEq α] (ag : QTableAgent σ α)
    (e : Exp σ α) (next_actions : List α) :
    (ag.learn e next_actions).q_table =
      qinsert ag.q_table (e.state, e.action)
        ((1 - ag.alpha) * qget ag.q_table (e.state, e.action)
          + ag.alpha * (e.reward + ag.gamma * maxNextQ ag.q_table e.next_state next_actions)) := rfl

/-- `learn` does not change `alpha`. -/
theorem learn_alpha [DecidableEq σ] [DecidableEq α] (ag : QTableAgent σ α)
    (e : Exp σ α) (next_actions : List α) : (ag.learn e next_actions).alpha = ag.alpha := rfl

/-- `learn` does not change `gamma`. -/
theorem learn_gamma [DecidableEq σ] [DecidableEq α] (ag : QTableAgent σ α)
    (e : Exp σ α) (next_actions : List α) : (ag.learn e next_actions).gamma = ag.gamma := rfl

/-- Folding `max` over elements all below the seed returns the seed. -/
theorem foldl_max_self (l : List ℚ) (c : ℚ) (h : ∀ x ∈ l, x ≤ c) :
    l.foldl max c = c := by
  induction l generalizing c with
  | nil => rfl
  | cons x xs ih =>
    simp only [List.foldl_cons]
    rw [max_eq_left (h x (by simp))]
    exact ih c fun y hy => h y (by simp [hy])

/-- The bootstrap term is exactly `0` on a terminal transition
(`next_state = none`), whatever the table and action list. -/
theorem maxNextQ_none [DecidableEq σ] [DecidableEq α] (table : QTable σ α)
    (acts : List α) : maxNextQ table none acts = 0 := by
  unfold maxNextQ
  have hm : (acts.map fun a =>
      match (none : Option σ) with
      | some s => qget table (s, a)
      | none => 0) = acts.map fun _ => (0 : ℚ) := rfl
  rw [hm]
  cases acts with
  | nil => rfl
  | cons a as =>
    simp only [List.map_cons, listMax]
    exact foldl_max_self _ _ (by intro x hx; simp at hx; simp [hx])

/-! ## Claim theorems -/

/-- C3 counterexample: the code does NOT exempt `rate = 0` from the sign
check, nor does a non-positive rate require `vi < vf`.  At `rate = 0`,
`vi = 0`, `vf = 1` (where the claim demands success) construction fails
with the validation error, while at `rate = 0`, `vi = 1`, `vf = 0`
(where the claim's "non-positive rate requires `vi < vf`" demands
failure) it succeeds: `rate = 0` is handled by the `rate >= 0.0` branch,
which requires `vi > vf`. -/
theorem validate_rate_zero_not_exempt :
    Exponential.new 0 0 1 = Except.error "`vi - vf` must have same sign as `rate`"
    ∧ (Exponential.new 0 1 0).isOk = true := by
  exact ⟨rfl, by decide⟩

/-- C3 (amended): for every non-Constant variant, construction succeeds
iff `(rate ≥ 0 ∧ vi > vf) ∨ (rate < 0 ∧ vi < vf)` — a NONNEGATIVE rate
(zero included, which is not exempted) requires `vi > vf` and a negative
rate requires `vi < vf` — and otherwise `validate` fails with the
human-readable message. -/
theorem decay_new_sign_check (rate vi vf step : ℚ) :
    ((Exponential.new rate vi vf).isOk = true ↔ ((0 ≤ rate ∧ vf < vi) ∨ (rate < 0 ∧ vi < vf)))
    ∧ ((InverseTime.new rate vi vf).isOk = true ↔ ((0 ≤ rate ∧ vf < vi) ∨ (rate < 0 ∧ vi < vf)))
    ∧ ((Linear.new rate vi vf).isOk = true ↔ ((0 ≤ rate ∧ vf < vi) ∨ (rate < 0 ∧ vi < vf)))
    ∧ ((Step.new rate vi vf step).isOk = true ↔ ((0 ≤ rate ∧ vf < vi) ∨ (rate < 0 ∧ vi < vf)))
    ∧ (validate rate vi vf = Except.error "`vi - vf` must have same sign as `rate`" ↔
        ¬((0 ≤ rate ∧ vf < vi) ∨ (rate < 0 ∧ vi < vf))) := by
  refine ⟨?_, ?_, ?_, ?_, validate_error_iff rate vi vf⟩ <;>
    simp only [Exponential.new, InverseTime.new, Linear.new, Step.new, except_map_isOk] <;>
    exact validate_isOk_iff rate vi vf

/-- C10: for every non-Constant variant and every rate (and step),
construction with `vi = vf` fails: both branches of `validate` demand a
strict inequality between `vi` and `vf`. -/
theorem decay_new_vi_eq_vf_fails (rate v step : ℚ) :
    (Exponential.new rate v v).isOk = false
    ∧ (InverseTime.new rate v v).isOk = false
    ∧ (Linear.new rate v v).isOk = false
    ∧ (Step.new rate v v step).isOk = false := by
  have h : ¬((0 ≤ rate ∧ v < v) ∨ (rate < 0 ∧ v < v)) := by
    rintro (⟨-, hv⟩ | ⟨-, hv⟩) <;> exact lt_irrefl v hv
  have h' : (validate rate v v).isOk = false := by
    rcases Bool.eq_false_or_eq_true (validate rate v v).isOk with hb | hb
    · exact absurd ((validate_isOk_iff rate v v).mp hb) h
    · exact hb
  refine ⟨?_, ?_, ?_, ?_⟩ <;>
    simp only [Exponential.new, InverseTime.new, Linear.new, Step.new, except_map_isOk] <;>
    exact h'

/-- C9: `QTableAgent::new` succeeds exactly when both `alpha` and
`gamma` lie in the closed interval `[0,1]`; in particular it succeeds at
the boundary values `0` and `1` and fails outside, and a failed
construction yields no agent (`none` models the panic). -/
theorem agent_new_interval (σ α : Type) (a g : ℚ) (ex : EpsilonGreedy) :
    ((QTableAgent.new σ α a g ex).isSome = true ↔
      ((0 ≤ a ∧ a ≤ 1) ∧ (0 ≤ g ∧ g ≤ 1)))
    ∧ (QTableAgent.new σ α 0 1 ex).isSome = true
    ∧ (QTableAgent.new σ α 1 0 ex).isSome = true := by
  have key : ∀ a g : ℚ, (QTableAgent.new σ α a g ex).isSome = true ↔
      ((0 ≤ a ∧ a ≤ 1) ∧ (0 ≤ g ∧ g ≤ 1)) := by
    intro a g
    unfold QTableAgent.new assert_interval
    by_cases h1 : 0 ≤ a ∧ a ≤ 1 <;> by_cases h2 : 0 ≤ g ∧ g ≤ 1 <;>
      simp [h1, h2, Option.bind]
  refine ⟨key a g, ?_, ?_⟩
  · exact (key 0 1).mpr ⟨⟨le_refl 0, zero_le_one⟩, ⟨zero_le_one, le_refl 1⟩⟩
  · exact (key 1 0).mpr ⟨⟨zero_le_one, le_refl 1⟩, ⟨le_refl 0, zero_le_one⟩⟩

/-- C1: for every agent with `alpha, gamma ∈ [0,1]`, every experience
and every next-action list, `learn` sets the entry for `(state, action)`
to `(1 − alpha)·Q(s,a) + alpha·(reward + gamma·max_next_q)` where absent
entries read `0`; the bootstrap term is exactly `0` when `next_state` is
`none`; and on a fresh agent (empty table) with a terminal transition
the entry becomes exactly `alpha · reward`. -/
theorem learn_td_update [DecidableEq σ] [DecidableEq α] (ag : QTableAgent σ α)
    (e : Exp σ α) (next_actions : List α)
    (h0 : 0 ≤ ag.alpha) (h1 : ag.alpha ≤ 1) (h2 : 0 ≤ ag.gamma) (h3 : ag.gamma ≤ 1) :
    qget (ag.learn e next_actions).q_table (e.state, e.action)
      = (1 - ag.alpha) * qget ag.q_table (e.state, e.action)
        + ag.alpha * (e.reward + ag.gamma * maxNextQ ag.q_table e.next_state next_actions)
    ∧ (e.next_state = none → maxNextQ ag.q_table e.next_state next_actions = 0)
    ∧ (ag.q_table = [] → e.next_state = none →
        qget (ag.learn e next_actions).q_table (e.state, e.action) = ag.alpha * e.reward) := by
  have hmain : qget (ag.learn e next_actions).q_table (e.state, e.action)
      = (1 - ag.alpha) * qget ag.q_table (e.state, e.action)
        + ag.alpha * (e.reward + ag.gamma * maxNextQ ag.q_table e.next_state next_actions) := by
    rw [learn_q_table, qget_qinsert_self]
  refine ⟨hmain, ?_, ?_⟩
  · intro hterm
    rw [hterm]
    exact maxNextQ_none ag.q_table next_actions
  · intro hfresh hterm
    rw [hmain, hfresh, hterm, maxNextQ_none]
    show (1 - ag.alpha) * qget ([] : QTable σ α) (e.state, e.action)
        + ag.alpha * (e.reward + ag.gamma * 0) = ag.alpha * e.reward
    have : qget ([] : QTable σ α) (e.state, e.action) = 0 := rfl
    rw [this]
    ring

/-- C1 witness: the generic TD-update theorem instantiated at the
concrete fresh agent (`alpha = 1/2`, `gamma = 9/10`) and the terminal
experience `(0, 0, none, 1)`. -/
theorem learn_td_update_inst :
    (0 ≤ sampleAgent.alpha ∧ sampleAgent.alpha ≤ 1
      ∧ 0 ≤ sampleAgent.gamma ∧ sampleAgent.gamma ≤ 1)
    ∧ (qget (sampleAgent.learn sampleExp [0]).q_table (sampleExp.state, sampleExp.action)
        = (1 - sampleAgent.alpha) * qget sampleAgent.q_table (sampleExp.state, sampleExp.action)
          + sampleAgent.alpha
            * (sampleExp.reward
                + sampleAgent.gamma * maxNextQ sampleAgent.q_table sampleExp.next_state [0])
      ∧ (sampleExp.next_state = none →
          maxNextQ sampleAgent.q_table sampleExp.next_state [0] = 0)
      ∧ (sampleAgent.q_table = [] → sampleExp.next_state = none →
          qget (sampleAgent.learn sampleExp [0]).q_table (sampleExp.state, sampleExp.action)
            = sampleAgent.alpha * sampleExp.reward)) :=
  ⟨⟨by decide, by decide, by decide, by decide⟩,
    learn_td_update sampleAgent sampleExp [0] (by decide) (by decide) (by decide) (by decide)⟩

/-- `lastArgmax` never returns `none` on a non-empty list. -/
theorem lastArgmax_ne_none (f : α → ℚ) (a : α) (as : List α) :
    lastArgmax f (a :: as) ≠ none := by
  simp only [lastArgmax]
  cases h : lastArgmax f as with
  | none => simp
  | some b => by_cases hc : f b < f a <;> simp [hc]

/-- The element returned by `lastArgmax` belongs to the list. -/
theorem lastArgmax_mem (f : α → ℚ) :
    ∀ (l : List α) (a : α), lastArgmax f l = some a → a ∈ l := by
  intro l
  induction l with
  | nil => intro a h; simp [lastArgmax] at h
  | cons x xs ih =>
    intro a h
    simp only [lastArgmax] at h
    cases h' : lastArgmax f xs with
    | none =>
      rw [h'] at h
      simp at h
      simp [h]
    | some b =>
      rw [h'] at h
      by_cases hc : f b < f x
      · simp [hc] at h
        simp [h]
      · simp [hc] at h
        exact h ▸ List.mem_cons_of_mem x (ih b h')

/-- The element returned by `lastArgmax` has maximal value. -/
theorem lastArgmax_le (f : α → ℚ) :
    ∀ (l : List α) (a : α), lastArgmax f l = some a → ∀ b ∈ l, f b ≤ f a := by
  intro l
  induction l with
  | nil => intro a h; simp [lastArgmax] at h
  | cons x xs ih =>
    intro a h b hb
    simp only [lastArgmax] at h
    cases h' : lastArgmax f xs with
    | none =>
      rw [h'] at h
      simp at h
      subst h
      have hxs : xs = [] := by
        cases xs with
        | nil => rfl
        | cons y ys => exact absurd h' (lastArgmax_ne_none f y ys)
      subst hxs
      simp at hb
      subst hb
      exact le_refl _
    | some c =>
      rw [h'] at h
      rcases List.mem_cons.mp hb with hbx | hbxs
      · subst hbx
        by_cases hc : f c < f b
        · simp [hc] at h
          subst h
          exact le_refl _
        · simp [hc] at h
          subst h
          exact le_of_not_lt hc
      · have hbc := ih c h' b hbxs
        by_cases hc : f c < f x
        · simp [hc] at h
          subst h
          exact le_trans hbc (le_of_lt hc)
        · simp [hc] at h
          subst h
          exact hbc

/-- The fold inside `maxByVal` computes the last maximal element of the
accumulator-seeded list. -/
theorem foldl_maxBy_cons (f : α → ℚ) :
    ∀ (l : List α) (a : α),
      some (l.foldl (fun acc x => if f acc ≤ f x then x else acc) a)
        = lastArgmax f (a :: l) := by
  intro l
  induction l with
  | nil => intro a; rfl
  | cons x xs ih =>
    intro a
    simp only [List.foldl_cons]
    rw [ih]
    show lastArgmax f ((if f a ≤ f x then x else a) :: xs) = lastArgmax f (a :: x :: xs)
    simp only [lastArgmax]
    cases h : lastArgmax f xs with
    | none =>
      by_cases h1 : f a ≤ f x <;> simp only [h1, if_true, if_false, ite_true, ite_false] <;>
        (try dsimp only) <;> split_ifs <;> simp_all <;> linarith
    | some b =>
      by_cases h1 : f a ≤ f x <;> by_cases h2 : f b < f x <;>
        simp only [h1, h2, if_true, if_false, ite_true, ite_false] <;>
        (try dsimp only) <;> split_ifs <;> simp_all <;> linarith

/-- Rust's tie-preferring-later `max_by` equals `lastArgmax`. -/
theorem maxByVal_eq_lastArgmax (f : α → ℚ) (l : List α) :
    maxByVal f l = lastArgmax f l := by
  cases l with
  | nil => rfl
  | cons a as => exact foldl_maxBy_cons f as a

/-- C2 counterexample: with two actions of equal Q-value (both unseen,
reading 0), `act` under Exploit returns action `1` — the LAST maximal
action of the provided list `[0, 1]` — whereas the claim's first-maximal
tie-break selects action `0`. -/
theorem act_exploit_tie_not_first :
    sampleAgent.act Choice.exploit 0 0 [0, 1] = some 1
    ∧ qget sampleAgent.q_table (0, 0) = qget sampleAgent.q_table (0, 1)
    ∧ firstArgmax (fun b => qget sampleAgent.q_table (0, b)) [0, 1] = some 0 := by
  decide

/-- C2 (amended): for every state and non-empty action list, `act` under
Exploit returns an action whose looked-up Q-value (0 for unseen pairs)
is maximal among the listed actions, and on ties it returns the LAST
maximal action encountered in the provided list (Rust's `Iterator::max_by`
keeps the later of two equal elements). -/
theorem act_exploit_returns_last_argmax [DecidableEq σ] [DecidableEq α]
    (ag : QTableAgent σ α) (rnd : α) (state : σ) (actions : List α)
    (hne : actions ≠ []) :
    ∃ a, ag.act Choice.exploit rnd state actions = some a
      ∧ a ∈ actions
      ∧ (∀ b ∈ actions, qget ag.q_table (state, b) ≤ qget ag.q_table (state, a))
      ∧ lastArgmax (fun b => qget ag.q_table (state, b)) actions = some a := by
  cases actions with
  | nil => exact absurd rfl hne
  | cons x xs =>
    have hact : ag.act Choice.exploit rnd state (x :: xs)
        = lastArgmax (fun b => qget ag.q_table (state, b)) (x :: xs) := by
      show maxByVal (fun b => qget ag.q_table (state, b)) (x :: xs) = _
      exact maxByVal_eq_lastArgmax _ _
    cases h : lastArgmax (fun b => qget ag.q_table (state, b)) (x :: xs) with
    | none => exact absurd h (lastArgmax_ne_none _ x xs)
    | some a =>
      exact ⟨a, by rw [hact, h], lastArgmax_mem _ _ a h, lastArgmax_le _ _ a h, rfl⟩

/-- C2 witness: the amended theorem instantiated at the fresh agent and
the two-action list `[0, 1]`. -/
theorem act_exploit_returns_last_argmax_inst :
    ([0, 1] : List ℕ) ≠ []
    ∧ ∃ a, sampleAgent.act Choice.exploit 0 0 [0, 1] = some a
        ∧ a ∈ ([0, 1] : List ℕ)
        ∧ (∀ b ∈ ([0, 1] : List ℕ),
            qget sampleAgent.q_table (0, b) ≤ qget sampleAgent.q_table (0, a))
        ∧ lastArgmax (fun b => qget sampleAgent.q_table (0, b)) [0, 1] = some a :=
  ⟨by decide, act_exploit_returns_last_argmax sampleAgent 0 0 [0, 1] (by decide)⟩

/-- C8 counterexample: a call to `act` with an empty legal-action list
does NOT fail when the exploration draw is Explore — it returns the
environment's `random_action` — so not every empty-list call fails; only
the Exploit branch reaches the `.expect` panic. -/
theorem act_explore_empty_no_failure :
    sampleAgent.act Choice.explore 7 0 [] = some 7 := rfl

/-- C8 (amended): when the exploration draw is Exploit, `act` with an
empty legal-action list fails (the `.expect` panic, modelled by `none`)
and with a non-empty list returns an action without failing; when the
draw is Explore, `act` returns the environment's random action without
failing regardless of the list. -/
theorem act_empty_action_contract [DecidableEq σ] [DecidableEq α]
    (ag : QTableAgent σ α) (rnd : α) (state : σ) (actions : List α)
    (hne : actions ≠ []) :
    ag.act Choice.exploit rnd state [] = none
    ∧ (ag.act Choice.exploit rnd state actions).isSome = true
    ∧ ag.act Choice.explore rnd state actions = some rnd := by
  refine ⟨rfl, ?_, rfl⟩
  cases actions with
  | nil => exact absurd rfl hne
  | cons x xs => rfl

/-- C8 witness: the amended theorem instantiated at the fresh agent and
the one-action list `[0]`. -/
theorem act_empty_action_contract_inst :
    ([0] : List ℕ) ≠ []
    ∧ (sampleAgent.act Choice.exploit 0 0 [] = none
      ∧ (sampleAgent.act Choice.exploit 0 0 [0]).isSome = true
      ∧ sampleAgent.act Choice.explore 0 0 [0] = some 0) :=
  ⟨by decide, act_empty_action_contract sampleAgent 0 0 [0] (by decide)⟩

/-- C4 counterexample: `Linear::new(-1.0, 0.0, 1.0)` is accepted by
construction (negative rate with `vi < vf`), yet `evaluate(0)` is
`max(vi - rate·0, vf) = max(0, 1) = 1 = vf ≠ vi`: `evaluate(0) = vi`
fails for a successfully constructed Linear decay. -/
theorem linear_evaluate_zero_ne_vi :
    Linear.new (-1) 0 1 = Except.ok ⟨-1, 0, 1⟩
    ∧ Linear.evaluate ⟨-1, 0, 1⟩ 0 = 1 ∧ ((1 : ℚ) ≠ 0) := by
  refine ⟨rfl, ?_, by norm_num⟩
  norm_num [Linear.evaluate]

/-- C4 (amended): for every successfully constructed decay,
`evaluate(0) = vi` holds unconditionally for Exponential and
InverseTime, and for Linear and Step exactly when `rate ≥ 0` (when the
rate is negative the code still clamps with `max`, so `evaluate(0) = vf`
instead); Constant's `evaluate(t)` equals its fixed value for every `t`. -/
theorem decay_evaluate_at_zero (rate vi vf step value t : ℚ)
    (hok : (validate rate vi vf).isOk = true) :
    Exponential.evaluate ⟨rate, vi, vf⟩ 0 = (vi : ℝ)
    ∧ InverseTime.evaluate ⟨rate, vi, vf⟩ 0 = (vi : ℝ)
    ∧ (0 ≤ rate → Linear.evaluate ⟨rate, vi, vf⟩ 0 = vi)
    ∧ (0 ≤ rate → Step.evaluate ⟨rate, vi, vf, step⟩ 0 = vi)
    ∧ Constant.evaluate (Constant.new value) t = value := by
  have hv := (validate_isOk_iff rate vi vf).mp hok
  refine ⟨?_, ?_, ?_, ?_, rfl⟩
  · show (vf : ℝ) + ((vi : ℝ) - (vf : ℝ)) * Real.exp (-(rate : ℝ) * 0) = (vi : ℝ)
    rw [mul_zero, Real.exp_zero, mul_one]
    ring
  · show (vf : ℝ) + ((vi : ℝ) - (vf : ℝ)) / (1 + (rate : ℝ) * 0) = (vi : ℝ)
    rw [mul_zero, add_zero, div_one]
    ring
  · intro hr
    have hvf : vf < vi := by
      rcases hv with ⟨-, h⟩ | ⟨hneg, -⟩
      · exact h
      · linarith
    show max (vi - rate * 0) vf = vi
    rw [mul_zero, sub_zero]
    exact max_eq_left (le_of_lt hvf)
  · intro hr
    have hvf : vf < vi := by
      rcases hv with ⟨-, h⟩ | ⟨hneg, -⟩
      · exact h
      · linarith
    show max (vi * rate ^ (Int.floor ((0 : ℚ) / step))) vf = vi
    rw [zero_div, Int.floor_zero, zpow_zero, mul_one]
    exact max_eq_left (le_of_lt hvf)

/-- C4 witness: the amended theorem instantiated at `rate = 1`,
`vi = 1`, `vf = 0`, `step = 1`, Constant value 5 at `t = 3`. -/
theorem decay_evaluate_at_zero_inst :
    (validate 1 1 0).isOk = true
    ∧ (Exponential.evaluate ⟨1, 1, 0⟩ 0 = ((1 : ℚ) : ℝ)
      ∧ InverseTime.evaluate ⟨1, 1, 0⟩ 0 = ((1 : ℚ) : ℝ)
      ∧ (0 ≤ (1 : ℚ) → Linear.evaluate ⟨1, 1, 0⟩ 0 = 1)
      ∧ (0 ≤ (1 : ℚ) → Step.evaluate ⟨1, 1, 0, 1⟩ 0 = 1)
      ∧ Constant.evaluate (Constant.new 5) 3 = 5) :=
  ⟨by decide, decay_evaluate_at_zero 1 1 0 1 5 3 (by decide)⟩

/-- C6 counterexample: `Linear::new(-1.0, 0.0, 1.0)` is accepted, the
clamp time is `(vi − vf)/rate = 1`, and at `t = 2 ≥ 1` the code returns
`max(0 − (−1)·2, 1) = 2`, not the ceiling `vf = 1`: with a negative rate
the value does not stay clamped at `vf` (the code never takes a `min`). -/
theorem linear_negative_rate_not_clamped :
    Linear.new (-1) 0 1 = Except.ok ⟨-1, 0, 1⟩
    ∧ ((0 : ℚ) - 1) / (-1) ≤ 2
    ∧ Linear.evaluate ⟨-1, 0, 1⟩ 2 = 2
    ∧ ((2 : ℚ) ≠ 1) := by
  refine ⟨rfl, by norm_num, ?_, by norm_num⟩
  norm_num [Linear.evaluate]

/-- C6 (amended): for every successfully constructed Linear decay with
POSITIVE rate, `evaluate(t) = max(vi − rate·t, vf)` reaches the floor
`vf` exactly at `t = (vi − vf)/rate` and stays `vf` for all larger `t`,
and equals `vi − rate·t > vf` before that time; with a NEGATIVE rate the
code still applies `max`, so the value equals `vf` up to
`t = (vi − vf)/rate` and equals the unboundedly growing `vi − rate·t`
(no ceiling clamp) afterwards. -/
theorem linear_clamp (rate vi vf t : ℚ) (hok : (validate rate vi vf).isOk = true) :
    (0 < rate →
      ((vi - vf) / rate ≤ t → Linear.evaluate ⟨rate, vi, vf⟩ t = vf)
      ∧ (t < (vi - vf) / rate →
          Linear.evaluate ⟨rate, vi, vf⟩ t = vi - rate * t
          ∧ vf < Linear.evaluate ⟨rate, vi, vf⟩ t))
    ∧ (rate < 0 →
      (t ≤ (vi - vf) / rate → Linear.evaluate ⟨rate, vi, vf⟩ t = vf)
      ∧ ((vi - vf) / rate ≤ t → Linear.evaluate ⟨rate, vi, vf⟩ t = vi - rate * t)) := by
  have hv := (validate_isOk_iff rate vi vf).mp hok
  constructor
  · intro hr
    constructor
    · intro ht
      have hle : vi - vf ≤ t * rate := (div_le_iff₀ hr).mp ht
      show max (vi - rate * t) vf = vf
      exact max_eq_right (by linarith [mul_comm t rate])
    · intro ht
      have hlt : t * rate < vi - vf := (lt_div_iff₀ hr).mp ht
      have hgt : vf < vi - rate * t := by linarith [mul_comm t rate]
      constructor
      · show max (vi - rate * t) vf = vi - rate * t
        exact max_eq_left (le_of_lt hgt)
      · show vf < max (vi - rate * t) vf
        exact lt_max_of_lt_left hgt
  · intro hr
    have hvf : vi < vf := by
      rcases hv with ⟨hge, -⟩ | ⟨-, h⟩
      · linarith
      · exact h
    constructor
    · intro ht
      have hle : vi - vf ≤ t * rate := (le_div_iff_of_neg hr).mp ht
      show max (vi - rate * t) vf = vf
      exact max_eq_right (by linarith [mul_comm t rate])
    · intro ht
      have hle : t * rate ≤ vi - vf := (div_le_iff_of_neg hr).mp ht
      show max (vi - rate * t) vf = vi - rate * t
      exact max_eq_left (by linarith [mul_comm t rate])

/-- C6 witness: the amended clamping theorem instantiated at `rate = 1`,
`vi = 1`, `vf = 0`, `t = 3` (past the clamp time `(1 − 0)/1 = 1`). -/
theorem linear_clamp_inst :
    (validate 1 1 0).isOk = true
    ∧ ((0 < (1 : ℚ) →
        (((1 : ℚ) - 0) / 1 ≤ 3 → Linear.evaluate ⟨1, 1, 0⟩ 3 = 0)
        ∧ ((3 : ℚ) < ((1 : ℚ) - 0) / 1 →
            Linear.evaluate ⟨1, 1, 0⟩ 3 = 1 - 1 * 3
            ∧ (0 : ℚ) < Linear.evaluate ⟨1, 1, 0⟩ 3))
      ∧ ((1 : ℚ) < 0 →
        ((3 : ℚ) ≤ ((1 : ℚ) - 0) / 1 → Linear.evaluate ⟨1, 1, 0⟩ 3 = 0)
        ∧ (((1 : ℚ) - 0) / 1 ≤ 3 → Linear.evaluate ⟨1, 1, 0⟩ 3 = 1 - 1 * 3))) :=
  ⟨by decide, linear_clamp 1 1 0 3 (by decide)⟩

/-- C5 counterexample: `Exponential::new(0.0, 1.0, 0.0)` is accepted by
construction (zero rate with `vi > vf`), yet `evaluate(t) = 1` for every
`t`, so it does not converge toward `vf = 0` as `t → ∞`. -/
theorem exponential_rate_zero_not_tendsto :
    (Exponential.new 0 1 0).isOk = true
    ∧ ¬ Filter.Tendsto (Exponential.evaluate ⟨0, 1, 0⟩) Filter.atTop (nhds 0) := by
  refine ⟨by decide, ?_⟩
  intro h
  have hconst : Exponential.evaluate ⟨0, 1, 0⟩ = fun _ : ℝ => (1 : ℝ) := by
    funext t
    show ((0 : ℚ) : ℝ) + (((1 : ℚ) : ℝ) - ((0 : ℚ) : ℝ)) * Real.exp (-((0 : ℚ) : ℝ) * t) = 1
    norm_num
  rw [hconst] at h
  have h1 : Filter.Tendsto (fun _ : ℝ => (1 : ℝ)) Filter.atTop (nhds 1) :=
    tendsto_const_nhds
  have := tendsto_nhds_unique h h1
  norm_num at this

/-- C5 (amended): for every successfully constructed decay,
`evaluate(t) → vf` as `t → ∞` holds for Exponential when the rate is
strictly positive, and for InverseTime whenever the rate is nonzero
(for a zero rate both are constant at `vi ≠ vf`; for a negative rate
the Exponential diverges to `−∞` since `e^(−rate·t)` blows up). -/
theorem decay_tendsto_vf (rate vi vf : ℚ)
    (hok : (validate rate vi vf).isOk = true) :
    (0 < rate →
      Filter.Tendsto (Exponential.evaluate ⟨rate, vi, vf⟩) Filter.atTop (nhds (vf : ℝ)))
    ∧ (rate ≠ 0 →
      Filter.Tendsto (InverseTime.evaluate ⟨rate, vi, vf⟩) Filter.atTop (nhds (vf : ℝ))) := by
  constructor
  · intro hr
    have hrR : (0 : ℝ) < (rate : ℝ) := by exact_mod_cast hr
    have harg : Filter.Tendsto (fun t : ℝ => -(rate : ℝ) * t) Filter.atTop Filter.atBot :=
      (Filter.tendsto_const_mul_atBot_of_neg (neg_lt_zero.mpr hrR)).mpr Filter.tendsto_id
    have hexp : Filter.Tendsto (fun t : ℝ => Real.exp (-(rate : ℝ) * t))
        Filter.atTop (nhds 0) := Real.tendsto_exp_atBot.comp harg
    have hmul := hexp.const_mul ((vi : ℝ) - (vf : ℝ))
    rw [mul_zero] at hmul
    have hsum := hmul.const_add (vf : ℝ)
    rw [add_zero] at hsum
    exact hsum
  · intro hr
    have hneq : ((rate : ℝ)) ≠ 0 := by exact_mod_cast hr
    rcases hneq.lt_or_lt with hneg | hpos
    · have hbot : Filter.Tendsto (fun t : ℝ => 1 + (rate : ℝ) * t) Filter.atTop Filter.atBot :=
        Filter.tendsto_atBot_add_const_left Filter.atTop 1
          ((Filter.tendsto_const_mul_atBot_of_neg hneg).mpr Filter.tendsto_id)
      have htop : Filter.Tendsto (fun t : ℝ => -(1 + (rate : ℝ) * t)) Filter.atTop Filter.atTop :=
        Filter.tendsto_neg_atBot_atTop.comp hbot
      have hdiv : Filter.Tendsto (fun t : ℝ => ((vi : ℝ) - (vf : ℝ)) / -(1 + (rate : ℝ) * t))
          Filter.atTop (nhds 0) := tendsto_const_nhds.div_atTop htop
      have hdiv' : Filter.Tendsto (fun t : ℝ => ((vi : ℝ) - (vf : ℝ)) / (1 + (rate : ℝ) * t))
          Filter.atTop (nhds 0) := by
        have hneg' := hdiv.neg
        simp only [div_neg, neg_neg, neg_zero] at hneg'
        exact hneg'
      have hsum := hdiv'.const_add (vf : ℝ)
      rw [add_zero] at hsum
      exact hsum
    · have htop : Filter.Tendsto (fun t : ℝ => 1 + (rate : ℝ) * t) Filter.atTop Filter.atTop :=
        Filter.tendsto_atTop_add_const_left Filter.atTop 1
          ((Filter.tendsto_const_mul_atTop_of_pos hpos).mpr Filter.tendsto_id)
      have hdiv : Filter.Tendsto (fun t : ℝ => ((vi : ℝ) - (vf : ℝ)) / (1 + (rate : ℝ) * t))
          Filter.atTop (nhds 0) := tendsto_const_nhds.div_atTop htop
      have hsum := hdiv.const_add (vf : ℝ)
      rw [add_zero] at hsum
      exact hsum

/-- C5 witness: the amended convergence theorem instantiated at
`rate = 1`, `vi = 1`, `vf = 0`. -/
theorem decay_tendsto_vf_inst :
    (validate 1 1 0).isOk = true
    ∧ ((0 < (1 : ℚ) →
        Filter.Tendsto (Exponential.evaluate ⟨1, 1, 0⟩) Filter.atTop (nhds ((0 : ℚ) : ℝ)))
      ∧ ((1 : ℚ) ≠ 0 →
        Filter.Tendsto (InverseTime.evaluate ⟨1, 1, 0⟩) Filter.atTop (nhds ((0 : ℚ) : ℝ)))) :=
  ⟨by decide, decay_tendsto_vf 1 1 0 (by decide)⟩

/-- If no `(next_state, a)` pair with `a` in the next-action list equals
the updated key, `learn` leaves the bootstrap term unchanged. -/
theorem maxNextQ_learn [DecidableEq σ] [DecidableEq α] (ag : QTableAgent σ α)
    (e : Exp σ α) (acts : List α)
    (hfix : ∀ s, e.next_state = some s → ∀ a ∈ acts, (s, a) ≠ (e.state, e.action)) :
    maxNextQ (ag.learn e acts).q_table e.next_state acts
      = maxNextQ ag.q_table e.next_state acts := by
  cases hn : e.next_state with
  | none => rw [maxNextQ_none, maxNextQ_none]
  | some s =>
    unfold maxNextQ
    congr 1
    apply List.map_congr_left
    intro a ha
    show qget (ag.learn e acts).q_table (s, a) = qget ag.q_table (s, a)
    rw [learn_q_table]
    exact qget_qinsert_ne _ _ _ _ (hfix s hn a ha)

/-- `learnIter` does not change `alpha`. -/
theorem learnIter_alpha [DecidableEq σ] [DecidableEq α] (ag : QTableAgent σ α)
    (e : Exp σ α) (acts : List α) :
    ∀ n : ℕ, (learnIter ag e acts n).alpha = ag.alpha := by
  intro n
  induction n with
  | zero => rfl
  | succ k ih =>
    show ((learnIter ag e acts k).learn e acts).alpha = ag.alpha
    rw [learn_alpha]
    exact ih

/-- `learnIter` does not change `gamma`. -/
theorem learnIter_gamma [DecidableEq σ] [DecidableEq α] (ag : QTableAgent σ α)
    (e : Exp σ α) (acts : List α) :
    ∀ n : ℕ, (learnIter ag e acts n).gamma = ag.gamma := by
  intro n
  induction n with
  | zero => rfl
  | succ k ih =>
    show ((learnIter ag e acts k).learn e acts).gamma = ag.gamma
    rw [learn_gamma]
    exact ih

/-- Under the fixed-target side condition, the bootstrap term stays the
same across every number of repeated `learn` calls. -/
theorem learnIter_maxNextQ [DecidableEq σ] [DecidableEq α] (ag : QTableAgent σ α)
    (e : Exp σ α) (acts : List α)
    (hfix : ∀ s, e.next_state = some s → ∀ a ∈ acts, (s, a) ≠ (e.state, e.action)) :
    ∀ n : ℕ, maxNextQ (learnIter ag e acts n).q_table e.next_state acts
      = maxNextQ ag.q_table e.next_state acts := by
  intro n
  induction n with
  | zero => rfl
  | succ k ih =>
    show maxNextQ ((learnIter ag e acts k).learn e acts).q_table e.next_state acts = _
    rw [maxNextQ_learn _ _ _ hfix]
    exact ih

/-- C7: for `alpha` strictly between 0 and 1 and a fixed experience whose
TD target `T = reward + gamma·max_next_q` does not change between calls
(the updated key is not among the looked-up next-state pairs — in
particular any terminal experience), repeated identical `learn` calls
move `Q(state, action)` geometrically toward `T`: the target is indeed
invariant, the signed difference after `n` calls is `(1 − alpha)^n`
times the initial one, each call shrinks the distance `|Q − T|` by
exactly the factor `1 − alpha` (hence monotonically), and the sign of
`Q − T` never flips, so no single call overshoots past `T`. -/
theorem learn_repeated_converges [DecidableEq σ] [DecidableEq α]
    (ag : QTableAgent σ α) (e : Exp σ α) (acts : List α)
    (h0 : 0 < ag.alpha) (h1 : ag.alpha < 1)
    (hfix : ∀ s, e.next_state = some s → ∀ a ∈ acts, (s, a) ≠ (e.state, e.action)) :
    ∀ n : ℕ,
      (tdTarget (learnIter ag e acts n) e acts = tdTarget ag e acts)
      ∧ (qget (learnIter ag e acts n).q_table (e.state, e.action) - tdTarget ag e acts
          = (1 - ag.alpha) ^ n
            * (qget ag.q_table (e.state, e.action) - tdTarget ag e acts))
      ∧ (|qget (learnIter ag e acts (n + 1)).q_table (e.state, e.action) - tdTarget ag e acts|
          = (1 - ag.alpha)
            * |qget (learnIter ag e acts n).q_table (e.state, e.action) - tdTarget ag e acts|)
      ∧ (|qget (learnIter ag e acts (n + 1)).q_table (e.state, e.action) - tdTarget ag e acts|
          ≤ |qget (learnIter ag e acts n).q_table (e.state, e.action) - tdTarget ag e acts|)
      ∧ (qget ag.q_table (e.state, e.action) ≤ tdTarget ag e acts →
          qget (learnIter ag e acts n).q_table (e.state, e.action) ≤ tdTarget ag e acts)
      ∧ (tdTarget ag e acts ≤ qget ag.q_table (e.state, e.action) →
          tdTarget ag e acts ≤ qget (learnIter ag e acts n).q_table (e.state, e.action)) := by
  have hα0 : (0 : ℚ) < 1 - ag.alpha := by linarith
  have hA := learnIter_alpha ag e acts
  have hG := learnIter_gamma ag e acts
  have hM := learnIter_maxNextQ ag e acts hfix
  have hT : ∀ n : ℕ, tdTarget (learnIter ag e acts n) e acts = tdTarget ag e acts := by
    intro n
    unfold tdTarget
    rw [hG n, hM n]
  have hrec : ∀ n : ℕ, qget (learnIter ag e acts (n + 1)).q_table (e.state, e.action)
      = (1 - ag.alpha) * qget (learnIter ag e acts n).q_table (e.state, e.action)
        + ag.alpha * tdTarget ag e acts := by
    intro n
    show qget ((learnIter ag e acts n).learn e acts).q_table (e.state, e.action) = _
    rw [learn_q_table, qget_qinsert_self, hA n]
    unfold tdTarget
    rw [hG n, hM n]
  have hgeo : ∀ n : ℕ,
      qget (learnIter ag e acts n).q_table (e.state, e.action) - tdTarget ag e acts
        = (1 - ag.alpha) ^ n
          * (qget ag.q_table (e.state, e.action) - tdTarget ag e acts) := by
    intro n
    induction n with
    | zero =>
      rw [pow_zero, one_mul]
      rfl
    | succ k ih =>
      rw [hrec k]
      linear_combination (1 - ag.alpha) * ih
  have hshrink : ∀ n : ℕ,
      |qget (learnIter ag e acts (n + 1)).q_table (e.state, e.action) - tdTarget ag e acts|
        = (1 - ag.alpha)
          * |qget (learnIter ag e acts n).q_table (e.state, e.action) - tdTarget ag e acts| := by
    intro n
    have hstep : qget (learnIter ag e acts (n + 1)).q_table (e.state, e.action)
        - tdTarget ag e acts
        = (1 - ag.alpha)
          * (qget (learnIter ag e acts n).q_table (e.state, e.action) - tdTarget ag e acts) := by
      rw [hgeo (n + 1), hgeo n]
      ring
    rw [hstep, abs_mul, abs_of_pos hα0]
  intro n
  refine ⟨hT n, hgeo n, hshrink n, ?_, ?_, ?_⟩
  · rw [hshrink n]
    exact mul_le_of_le_one_left (abs_nonneg _) (by linarith)
  · intro hle
    have hp : (0 : ℚ) ≤ (1 - ag.alpha) ^ n := pow_nonneg (le_of_lt hα0) n
    have hD0 : qget ag.q_table (e.state, e.action) - tdTarget ag e acts ≤ 0 := by linarith
    have hprod : (1 - ag.alpha) ^ n
        * (qget ag.q_table (e.state, e.action) - tdTarget ag e acts) ≤ 0 :=
      mul_nonpos_of_nonneg_of_nonpos hp hD0
    have hDn := hgeo n
    linarith
  · intro hge
    have hp : (0 : ℚ) ≤ (1 - ag.alpha) ^ n := pow_nonneg (le_of_lt hα0) n
    have hD0 : 0 ≤ qget ag.q_table (e.state, e.action) - tdTarget ag e acts := by linarith
    have hprod : 0 ≤ (1 - ag.alpha) ^ n
        * (qget ag.q_table (e.state, e.action) - tdTarget ag e acts) :=
      mul_nonneg hp hD0
    have hDn := hgeo n
    linarith

/-- C7 witness: the fixed-point theorem instantiated at the concrete
fresh agent (`alpha = 1/2`), the terminal experience `(0, 0, none, 1)`
(so the target is trivially fixed) and `n = 1`. -/
theorem learn_repeated_converges_inst :
    (0 < sampleAgent.alpha ∧ sampleAgent.alpha < 1)
    ∧ ((tdTarget (learnIter sampleAgent sampleExp [0] 1) sampleExp [0]
          = tdTarget sampleAgent sampleExp [0])
      ∧ (qget (learnIter sampleAgent sampleExp [0] 1).q_table (sampleExp.state, sampleExp.action)
            - tdTarget sampleAgent sampleExp [0]
          = (1 - sampleAgent.alpha) ^ 1
            * (qget sampleAgent.q_table (sampleExp.state, sampleExp.action)
                - tdTarget sampleAgent sampleExp [0]))
      ∧ (|qget (learnIter sampleAgent sampleExp [0] (1 + 1)).q_table
              (sampleExp.state, sampleExp.action)
            - tdTarget sampleAgent sampleExp [0]|
          = (1 - sampleAgent.alpha)
            * |qget (learnIter sampleAgent sampleExp [0] 1).q_table
                  (sampleExp.state, sampleExp.action)
                - tdTarget sampleAgent sampleExp [0]|)
      ∧ (|qget (learnIter sampleAgent sampleExp [0] (1 + 1)).q_table
              (sampleExp.state, sampleExp.action)
            - tdTarget sampleAgent sampleExp [0]|
          ≤ |qget (learnIter sampleAgent sampleExp [0] 1).q_table
                (sampleExp.state, sampleExp.action)
              - tdTarget sampleAgent sampleExp [0]|)
      ∧ (qget sampleAgent.q_table (sampleExp.state, sampleExp.action)
            ≤ tdTarget sampleAgent sampleExp [0] →
          qget (learnIter sampleAgent sampleExp [0] 1).q_table
              (sampleExp.state, sampleExp.action)
            ≤ tdTarget sampleAgent sampleExp [0])
      ∧ (tdTarget sampleAgent sampleExp [0]
            ≤ qget sampleAgent.q_table (sampleExp.state, sampleExp.action) →
          tdTarget sampleAgent sampleExp [0]
            ≤ qget (learnIter sampleAgent sampleExp [0] 1).q_table
                (sampleExp.state, sampleExp.action))) :=
  ⟨⟨by decide, by decide⟩,
    learn_repeated_converges sampleAgent sampleExp [0] (by decide) (by decide)
      (by intro s h; simp [sampleExp] at h) 1⟩

end RL
